import Mathlib

/-
  Verification development for the amm-beta-sim repository.

  Shallow embedding conventions:
  - Python float and Decimal values are modelled as exact rationals.
  - Python int values are modelled as Lean Int.
  - Python floor division on ints is Int.fdiv; the built-in int() conversion
    truncates toward zero and is modelled by pyInt below.
  - The random source and the external pool adapter are modelled as explicit
    input streams over which theorems quantify.
  - The transcendental float power operator used by the range policy is an
    explicit function parameter fpow; qpow below instantiates it on the
    integer-exponent fragment where float power is exact.
-/

namespace AmmBetaSim

/-- Python int() conversion applied to a nonnegative or negative rational:
truncation toward zero. -/
def pyInt (q : ℚ) : Int :=
  if q < 0 then -(⌊-q⌋) else ⌊q⌋

/-- Model of the Python float power operator on the integer-exponent fragment,
where float power agrees with exact rational power. -/
def qpow (x y : ℚ) : ℚ :=
  if y.den = 1 then x ^ y.num else 0

-- ===================== offchain/beta_policy.py =====================

/-- Line 52 of beta_policy.py: snap current_tick down to a multiple of
tick_spacing, using Python floor division. -/
def snap_center (current_tick tick_spacing : Int) : Int :=
  (Int.fdiv current_tick tick_spacing) * tick_spacing

/-- Lines 58-61 of beta_policy.py: normalize the range width to a multiple of
tick_spacing, at least one spacing. -/
def norm_width (range_width_ticks tick_spacing : Int) : Int :=
  max tick_spacing ((Int.fdiv range_width_ticks tick_spacing) * tick_spacing)

/-- Lines 109-120 of beta_policy.py: the x coordinate in (0,1) assigned to a
band with distance index j; the index -1 marks the center band. -/
def betaX (half j : Int) : ℚ :=
  if j = -1 then 999/1000
  else
    let d : ℚ := ((j : ℚ) + 1/2) / ((max 1 half : Int) : ℚ)
    let x : ℚ := 1 - d
    let x1 : ℚ := if x ≤ 0 then 1/1000000 else x
    let x2 : ℚ := if 1 ≤ x1 then 1 - 1/1000000 else x1
    x2

/-- Lines 122-123 of beta_policy.py: the Beta-shaped weight of the band with
distance index j, clamped at zero. -/
def betaWeight (fpow : ℚ → ℚ → ℚ) (alpha beta_param : ℚ) (half j : Int) : ℚ :=
  max (fpow (betaX half j) (alpha - 1) * fpow (1 - betaX half j) (beta_param - 1)) 0

/-- Sort key relation of line 138 of beta_policy.py: compare bands by their
lower tick. -/
def lower_le (a b : Int × Int × ℚ) : Prop := a.1 ≤ b.1

instance : DecidableRel lower_le :=
  fun a b => inferInstanceAs (Decidable (a.1 ≤ b.1))

instance : IsTotal (Int × Int × ℚ) lower_le :=
  ⟨fun a b => le_total a.1 b.1⟩

instance : IsTrans (Int × Int × ℚ) lower_le :=
  ⟨fun _ _ _ h1 h2 => le_trans h1 h2⟩

/-- Lines 89-103 of beta_policy.py: the symmetric band list around the center,
each band tagged with its distance index (index -1 for the center band). -/
def beta_bands (center_tick rw sep half : Int) (desired_ranges : Int) :
    List (Int × Int × Int) :=
  let step := rw + sep
  (List.range half.toNat).flatMap (fun jn =>
    let j : Int := jn
    [(center_tick - (j + 1) * step, center_tick - (j + 1) * step + rw, j),
     (center_tick + j * step + sep, center_tick + j * step + sep + rw, j)]) ++
  (if desired_ranges % 2 = 1 then
    [(center_tick - Int.fdiv rw 2, center_tick + Int.fdiv rw 2, (-1 : Int))]
   else [])

/-- Lines 67-68 of beta_policy.py: normalize a positive separation to a
multiple of tick_spacing; a zero separation is kept as is. -/
def beta_sep (separation_ticks tick_spacing : Int) : Int :=
  if 0 < separation_ticks then
    (Int.fdiv separation_ticks tick_spacing) * tick_spacing
  else separation_ticks

/-- Lines 107-132 of beta_policy.py: Beta-shaped weights per band, fallback to
uniform weights when they all collapse to zero, normalization to the
total_liquidity budget, and the per-band minimum liquidity floor. -/
def beta_liquidities (fpow : ℚ → ℚ → ℚ) (alpha beta_param : ℚ) (half : Int)
    (bands : List (Int × Int × Int)) (total_liquidity min_group_liq : ℚ) :
    List ℚ :=
  let weights := bands.map (fun b => betaWeight fpow alpha beta_param half b.2.2)
  let weight_sum := weights.sum
  let weights2 := if weight_sum = 0 then List.replicate bands.length (1 : ℚ) else weights
  let weight_sum2 := if weight_sum = 0 then (bands.length : ℚ) else weight_sum
  let scale := total_liquidity / weight_sum2
  weights2.map (fun w => max min_group_liq (w * scale))

/-- The body of make_beta_ranges after the configuration checks pass
(lines 51-140 of beta_policy.py). -/
def beta_ranges_core (fpow : ℚ → ℚ → ℚ) (alpha beta_param : ℚ)
    (current_tick : Int) (total_liquidity : ℚ) (tick_spacing : Int)
    (desired_ranges range_width_ticks separation_ticks : Int)
    (min_group_liq : ℚ) : List (Int × Int × ℚ) :=
  let center_tick := snap_center current_tick tick_spacing
  let rw := norm_width range_width_ticks tick_spacing
  let sep := beta_sep separation_ticks tick_spacing
  let half := Int.fdiv desired_ranges 2
  let bands := beta_bands center_tick rw sep half desired_ranges
  let liquidities :=
    beta_liquidities fpow alpha beta_param half bands total_liquidity min_group_liq
  List.insertionSort lower_le
    ((bands.zip liquidities).map (fun bl => (bl.1.1, bl.1.2.1, bl.2)))

/-- The function make_beta_ranges of offchain/beta_policy.py. Returns none on
the configuration errors the source raises as ValueError. The float power
operator is the parameter fpow. -/
def make_beta_ranges (fpow : ℚ → ℚ → ℚ) (alpha beta_param : ℚ)
    (current_tick : Int) (total_liquidity : ℚ) (tick_spacing : Int)
    (desired_ranges range_width_ticks separation_ticks : Int)
    (min_group_liq : ℚ) : Option (List (Int × Int × ℚ)) :=
  if desired_ranges < 1 then none
  else if range_width_ticks ≤ 0 then none
  else if separation_ticks < 0 then none
  else some (beta_ranges_core fpow alpha beta_param current_tick total_liquidity
    tick_spacing desired_ranges range_width_ticks separation_ticks min_group_liq)

-- ===================== beta policy helper lemmas =====================

lemma flatMap_pair_length {α β : Type} (l : List α) (f g : α → β) :
    (l.flatMap (fun x => [f x, g x])).length = 2 * l.length := by
  induction l with
  | nil => rfl
  | cons a t ih => simp [List.flatMap_cons, ih]; omega

lemma beta_bands_length (center rw sep : Int) (desired_ranges : Int)
    (h1 : 1 ≤ desired_ranges) :
    (beta_bands center rw sep (Int.fdiv desired_ranges 2) desired_ranges).length
      = desired_ranges.toNat := by
  unfold beta_bands
  rw [List.length_append, flatMap_pair_length]
  rw [List.length_range]
  have he : Int.fdiv desired_ranges 2 = desired_ranges / 2 :=
    Int.fdiv_eq_ediv _ (by omega)
  rw [he]
  by_cases hodd : desired_ranges % 2 = 1
  · rw [if_pos hodd]
    simp only [List.length_cons, List.length_nil]
    omega
  · rw [if_neg hodd]
    simp only [List.length_nil]
    omega

lemma beta_liquidities_length (fpow : ℚ → ℚ → ℚ) (alpha beta_param : ℚ)
    (half : Int) (bands : List (Int × Int × Int)) (tl mg : ℚ) :
    (beta_liquidities fpow alpha beta_param half bands tl mg).length
      = bands.length := by
  simp only [beta_liquidities]
  split <;> simp

lemma dvd_snap_center (current_tick tick_spacing : Int) :
    tick_spacing ∣ snap_center current_tick tick_spacing :=
  dvd_mul_left _ _

lemma dvd_norm_width (rw ts : Int) : ts ∣ norm_width rw ts := by
  unfold norm_width
  rcases le_total ts ((Int.fdiv rw ts) * ts) with h | h
  · rw [max_eq_right h]; exact dvd_mul_left _ _
  · rw [max_eq_left h]

lemma dvd_beta_sep (sep ts : Int) (h : 0 ≤ sep) : ts ∣ beta_sep sep ts := by
  unfold beta_sep
  split
  · exact dvd_mul_left _ _
  · have : sep = 0 := by omega
    simp [this]

lemma norm_width_pos (rw ts : Int) (h : 0 < ts) : 0 < norm_width rw ts :=
  lt_of_lt_of_le h (le_max_left _ _)

lemma mem_beta_bands (center rw sep half dr : Int) (b : Int × Int × Int)
    (hb : b ∈ beta_bands center rw sep half dr) :
    (∃ j : Int, 0 ≤ j ∧ j < half ∧
      (b = (center - (j + 1) * (rw + sep), center - (j + 1) * (rw + sep) + rw, j) ∨
       b = (center + j * (rw + sep) + sep, center + j * (rw + sep) + sep + rw, j))) ∨
    (dr % 2 = 1 ∧ b = (center - Int.fdiv rw 2, center + Int.fdiv rw 2, -1)) := by
  unfold beta_bands at hb
  rcases List.mem_append.1 hb with hs | hc
  · left
    rcases List.mem_flatMap.1 hs with ⟨jn, hjn, hmem⟩
    refine ⟨(jn : Int), by omega, ?_, ?_⟩
    · have := List.mem_range.1 hjn
      omega
    · simp only [List.mem_cons, List.mem_singleton] at hmem
      rcases hmem with h | h | h
      · left; exact h
      · right; exact h
      · exact absurd h (by simp at h)
  · right
    split at hc
    · simp only [List.mem_singleton] at hc
      exact ⟨by assumption, hc⟩
    · exact absurd hc (by simp)

lemma sum_map_mul_const (l : List ℚ) (c : ℚ) :
    (l.map (fun w => w * c)).sum = l.sum * c := by
  induction l with
  | nil => simp
  | cons a t ih => simp [ih, add_mul]

lemma betaX_eq_of_lt (half j : Int) (h0 : 0 ≤ j) (hj : j < half) :
    betaX half j = 1 - ((j : ℚ) + 1/2) / (half : ℚ) := by
  have hh : (1 : Int) ≤ half := by omega
  have hmax : max 1 half = half := max_eq_right hh
  have hhq : (0 : ℚ) < (half : ℚ) := by exact_mod_cast (by omega : (0:Int) < half)
  have hjq : ((j : ℚ) + 1/2) ≤ (half : ℚ) - 1/2 := by
    have : (j : ℚ) ≤ (half : ℚ) - 1 := by exact_mod_cast (by omega : j ≤ half - 1)
    linarith
  have hd_pos : 0 < ((j : ℚ) + 1/2) / (half : ℚ) := by
    apply div_pos _ hhq
    have : (0 : ℚ) ≤ (j : ℚ) := by exact_mod_cast h0
    linarith
  have hd_lt : ((j : ℚ) + 1/2) / (half : ℚ) < 1 := by
    rw [div_lt_one hhq]; linarith
  have hc1 : ¬(1 - ((j : ℚ) + 1/2) / (half : ℚ) ≤ 0) := by linarith
  have hc2 : ¬((1 : ℚ) ≤ 1 - ((j : ℚ) + 1/2) / (half : ℚ)) := by linarith
  simp only [betaX, hmax]
  rw [if_neg (by omega), if_neg hc1, if_neg hc2]

lemma betaX_strict_anti (half j1 j2 : Int) (h0 : 0 ≤ j1) (h12 : j1 < j2)
    (h2 : j2 < half) : betaX half j2 < betaX half j1 := by
  rw [betaX_eq_of_lt half j1 h0 (by omega), betaX_eq_of_lt half j2 (by omega) h2]
  have hhq : (0 : ℚ) < (half : ℚ) := by exact_mod_cast (by omega : (0:Int) < half)
  have hj : (j1 : ℚ) + 1/2 < (j2 : ℚ) + 1/2 := by
    have : (j1 : ℚ) < (j2 : ℚ) := by exact_mod_cast h12
    linarith
  have hd : ((j1 : ℚ) + 1/2) / (half : ℚ) < ((j2 : ℚ) + 1/2) / (half : ℚ) := by
    gcongr
  linarith

-- ===================== claim theorems: range policy =====================

lemma make_beta_ranges_eq_some (fpow : ℚ → ℚ → ℚ) (alpha beta_param : ℚ)
    (current_tick : Int) (total_liquidity : ℚ) (tick_spacing : Int)
    (desired_ranges range_width_ticks separation_ticks : Int)
    (min_group_liq : ℚ) (h1 : 1 ≤ desired_ranges) (h2 : 0 < range_width_ticks)
    (h3 : 0 ≤ separation_ticks) :
    make_beta_ranges fpow alpha beta_param current_tick total_liquidity
      tick_spacing desired_ranges range_width_ticks separation_ticks
      min_group_liq
    = some (beta_ranges_core fpow alpha beta_param current_tick total_liquidity
      tick_spacing desired_ranges range_width_ticks separation_ticks
      min_group_liq) := by
  simp only [make_beta_ranges]
  rw [if_neg (by omega), if_neg (by omega), if_neg (by omega)]

/-- Claim C3: for every valid input configuration, the range policy returns
exactly desired_ranges bands, sorted in ascending order of lower_tick. -/
theorem c3_range_count_and_sorted (fpow : ℚ → ℚ → ℚ) (alpha beta_param : ℚ)
    (current_tick : Int) (total_liquidity : ℚ) (tick_spacing : Int)
    (desired_ranges range_width_ticks separation_ticks : Int)
    (min_group_liq : ℚ) (h1 : 1 ≤ desired_ranges) (h2 : 0 < range_width_ticks)
    (h3 : 0 ≤ separation_ticks) :
    ∃ l, make_beta_ranges fpow alpha beta_param current_tick total_liquidity
        tick_spacing desired_ranges range_width_ticks separation_ticks
        min_group_liq = some l ∧
      (l.length : Int) = desired_ranges ∧
      l.Pairwise (fun a b => a.1 ≤ b.1) := by
  refine ⟨_, make_beta_ranges_eq_some fpow alpha beta_param current_tick
    total_liquidity tick_spacing desired_ranges range_width_ticks
    separation_ticks min_group_liq h1 h2 h3, ?_, ?_⟩
  · simp only [beta_ranges_core]
    rw [List.length_insertionSort, List.length_map, List.length_zip,
      beta_liquidities_length, beta_bands_length _ _ _ _ h1]
    simp only [min_self]
    omega
  · simp only [beta_ranges_core]
    exact (List.sorted_insertionSort lower_le _).imp (fun h => h)

/-- Claim C3 witness at a concrete configuration. -/
theorem c3_witness :
    (1 : Int) ≤ 2 ∧
    ∃ l, make_beta_ranges qpow 1 1 120 1000 60 2 60 0 (1/1000) = some l ∧
      (l.length : Int) = 2 ∧ l.Pairwise (fun a b => a.1 ≤ b.1) :=
  ⟨by decide,
   c3_range_count_and_sorted qpow 1 1 120 1000 60 2 60 0 (1/1000)
     (by decide) (by decide) (by decide)⟩

/-- Claim C2, amended: under a valid configuration with positive tick_spacing,
every returned band either satisfies lower_tick lt upper_tick with both
bounds multiples of tick_spacing, or it is the single center band added when
desired_ranges is odd, which spans the snapped center plus or minus half the
normalized width; that half width need not be a multiple of tick_spacing. -/
theorem c2_amended_band_invariants (fpow : ℚ → ℚ → ℚ) (alpha beta_param : ℚ)
    (current_tick : Int) (total_liquidity : ℚ) (tick_spacing : Int)
    (desired_ranges range_width_ticks separation_ticks : Int)
    (min_group_liq : ℚ) (h1 : 1 ≤ desired_ranges) (h2 : 0 < range_width_ticks)
    (h3 : 0 ≤ separation_ticks) (h4 : 0 < tick_spacing) :
    ∃ l, make_beta_ranges fpow alpha beta_param current_tick total_liquidity
        tick_spacing desired_ranges range_width_ticks separation_ticks
        min_group_liq = some l ∧
      ∀ b ∈ l,
        (b.1 < b.2.1 ∧ tick_spacing ∣ b.1 ∧ tick_spacing ∣ b.2.1) ∨
        (desired_ranges % 2 = 1 ∧
          b.1 = snap_center current_tick tick_spacing
            - Int.fdiv (norm_width range_width_ticks tick_spacing) 2 ∧
          b.2.1 = snap_center current_tick tick_spacing
            + Int.fdiv (norm_width range_width_ticks tick_spacing) 2) := by
  refine ⟨_, make_beta_ranges_eq_some fpow alpha beta_param current_tick
    total_liquidity tick_spacing desired_ranges range_width_ticks
    separation_ticks min_group_liq h1 h2 h3, ?_⟩
  intro b hb
  simp only [beta_ranges_core] at hb
  rw [List.mem_insertionSort] at hb
  rcases List.mem_map.1 hb with ⟨bl, hbl, rfl⟩
  have hband := (List.of_mem_zip hbl).1
  have hdc : tick_spacing ∣ snap_center current_tick tick_spacing :=
    dvd_snap_center _ _
  have hdw : tick_spacing ∣ norm_width range_width_ticks tick_spacing :=
    dvd_norm_width _ _
  have hds : tick_spacing ∣ beta_sep separation_ticks tick_spacing :=
    dvd_beta_sep _ _ h3
  have hwpos : 0 < norm_width range_width_ticks tick_spacing :=
    norm_width_pos _ _ h4
  rcases mem_beta_bands _ _ _ _ _ _ hband with ⟨j, _, _, hcase⟩ | ⟨hodd, hc⟩
  · left
    have hdstep : tick_spacing ∣ (norm_width range_width_ticks tick_spacing
        + beta_sep separation_ticks tick_spacing) := dvd_add hdw hds
    rcases hcase with h | h <;> rw [h] <;> dsimp only <;>
      refine ⟨by omega, ?_, ?_⟩
    · exact dvd_sub hdc (hdstep.mul_left _)
    · exact dvd_add (dvd_sub hdc (hdstep.mul_left _)) hdw
    · exact dvd_add (dvd_add hdc (hdstep.mul_left _)) hds
    · exact dvd_add (dvd_add (dvd_add hdc (hdstep.mul_left _)) hds) hdw
  · right
    rw [hc]
    exact ⟨hodd, rfl, rfl⟩

unseal Rat.mul Rat.inv Rat.add Rat.sub in
/-- Claim C2 counterexample: with tick_spacing 60, desired_ranges 1 and width
60, the single returned band is the center band from minus 30 to 30, and its
bounds are not multiples of the tick spacing. -/
theorem c2_counterexample :
    make_beta_ranges qpow 1 1 0 1000 60 1 60 0 (1/1000)
      = some [((-30 : Int), (30 : Int), (1000 : ℚ))] ∧
    ¬((60 : Int) ∣ (-30 : Int)) := by
  constructor
  · decide
  · decide

/-- Claim C2 amended witness at a concrete configuration. -/
theorem c2_witness :
    (1 : Int) ≤ 2 ∧
    ∃ l, make_beta_ranges qpow 1 1 120 1000 60 2 60 0 (1/1000) = some l ∧
      ∀ b ∈ l,
        (b.1 < b.2.1 ∧ (60 : Int) ∣ b.1 ∧ (60 : Int) ∣ b.2.1) ∨
        ((2 : Int) % 2 = 1 ∧
          b.1 = snap_center 120 60 - Int.fdiv (norm_width 60 60) 2 ∧
          b.2.1 = snap_center 120 60 + Int.fdiv (norm_width 60 60) 2) :=
  ⟨by decide,
   c2_amended_band_invariants qpow 1 1 120 1000 60 2 60 0 (1/1000)
     (by decide) (by decide) (by decide) (by decide)⟩

lemma beta_liquidities_sum_ge (fpow : ℚ → ℚ → ℚ) (alpha beta_param : ℚ)
    (half : Int) (bands : List (Int × Int × Int)) (tl mg : ℚ)
    (hne : bands ≠ []) :
    tl ≤ (beta_liquidities fpow alpha beta_param half bands tl mg).sum := by
  have key : ∀ (ws : List ℚ) (sc : ℚ),
      (ws.map (fun w => w * sc)).sum ≤ (ws.map (fun w => max mg (w * sc))).sum :=
    fun ws sc => List.sum_le_sum (fun i _ => le_max_right _ _)
  have hn : ((bands.length : ℚ)) ≠ 0 := by
    have hlz : bands.length ≠ 0 := by
      simpa [List.length_eq_zero] using hne
    exact_mod_cast hlz
  simp only [beta_liquidities]
  split_ifs with hw
  · have h1 := key (List.replicate bands.length (1 : ℚ)) (tl / (bands.length : ℚ))
    rw [sum_map_mul_const] at h1
    have h2 : (List.replicate bands.length (1 : ℚ)).sum = (bands.length : ℚ) := by
      simp [List.sum_replicate]
    rw [h2, mul_comm, div_mul_cancel₀ _ hn] at h1
    exact h1
  · have h1 := key (bands.map (fun b => betaWeight fpow alpha beta_param half b.2.2))
      (tl / (bands.map (fun b => betaWeight fpow alpha beta_param half b.2.2)).sum)
    rw [sum_map_mul_const, mul_comm, div_mul_cancel₀ _ hw] at h1
    exact h1

/-- Claim C7: for every valid input configuration, the sum of the liquidities
of the returned bands is at least total_liquidity; the per-band minimum floor
can only push the realized sum above the budget. -/
theorem c7_liquidity_sum_ge_total (fpow : ℚ → ℚ → ℚ) (alpha beta_param : ℚ)
    (current_tick : Int) (total_liquidity : ℚ) (tick_spacing : Int)
    (desired_ranges range_width_ticks separation_ticks : Int)
    (min_group_liq : ℚ) (h1 : 1 ≤ desired_ranges) (h2 : 0 < range_width_ticks)
    (h3 : 0 ≤ separation_ticks) :
    ∃ l, make_beta_ranges fpow alpha beta_param current_tick total_liquidity
        tick_spacing desired_ranges range_width_ticks separation_ticks
        min_group_liq = some l ∧
      total_liquidity ≤ (l.map (fun b => b.2.2)).sum := by
  refine ⟨_, make_beta_ranges_eq_some fpow alpha beta_param current_tick
    total_liquidity tick_spacing desired_ranges range_width_ticks
    separation_ticks min_group_liq h1 h2 h3, ?_⟩
  simp only [beta_ranges_core]
  have hperm := List.perm_insertionSort lower_le
    (((beta_bands (snap_center current_tick tick_spacing)
        (norm_width range_width_ticks tick_spacing)
        (beta_sep separation_ticks tick_spacing)
        (Int.fdiv desired_ranges 2) desired_ranges).zip
      (beta_liquidities fpow alpha beta_param (Int.fdiv desired_ranges 2)
        (beta_bands (snap_center current_tick tick_spacing)
          (norm_width range_width_ticks tick_spacing)
          (beta_sep separation_ticks tick_spacing)
          (Int.fdiv desired_ranges 2) desired_ranges)
        total_liquidity min_group_liq)).map
      (fun bl => (bl.1.1, bl.1.2.1, bl.2)))
  have hgf : ∀ (l : List ((Int × Int × Int) × ℚ)),
      (l.map (fun bl => (bl.1.1, bl.1.2.1, bl.2))).map
        (fun b : Int × Int × ℚ => b.2.2) = l.map Prod.snd := by
    intro l
    rw [List.map_map]
    rfl
  rw [((hperm).map (fun b => b.2.2)).sum_eq, hgf]
  have hms : ((beta_bands (snap_center current_tick tick_spacing)
        (norm_width range_width_ticks tick_spacing)
        (beta_sep separation_ticks tick_spacing)
        (Int.fdiv desired_ranges 2) desired_ranges).zip
      (beta_liquidities fpow alpha beta_param (Int.fdiv desired_ranges 2)
        (beta_bands (snap_center current_tick tick_spacing)
          (norm_width range_width_ticks tick_spacing)
          (beta_sep separation_ticks tick_spacing)
          (Int.fdiv desired_ranges 2) desired_ranges)
        total_liquidity min_group_liq)).map Prod.snd
      = beta_liquidities fpow alpha beta_param (Int.fdiv desired_ranges 2)
        (beta_bands (snap_center current_tick tick_spacing)
          (norm_width range_width_ticks tick_spacing)
          (beta_sep separation_ticks tick_spacing)
          (Int.fdiv desired_ranges 2) desired_ranges)
        total_liquidity min_group_liq := by
    apply List.map_snd_zip
    rw [beta_liquidities_length, beta_bands_length _ _ _ _ h1]
  have hne : beta_bands (snap_center current_tick tick_spacing)
      (norm_width range_width_ticks tick_spacing)
      (beta_sep separation_ticks tick_spacing)
      (Int.fdiv desired_ranges 2) desired_ranges ≠ [] := by
    intro hnil
    have hl := beta_bands_length (snap_center current_tick tick_spacing)
      (norm_width range_width_ticks tick_spacing)
      (beta_sep separation_ticks tick_spacing) desired_ranges h1
    rw [hnil] at hl
    simp only [List.length_nil] at hl
    omega
  rw [hms]
  exact beta_liquidities_sum_ge _ _ _ _ _ _ _ hne

/-- Claim C7 witness at a concrete configuration. -/
theorem c7_witness :
    (1 : Int) ≤ 2 ∧
    ∃ l, make_beta_ranges qpow 1 1 120 1000 60 2 60 0 (1/1000) = some l ∧
      (1000 : ℚ) ≤ (l.map (fun b => b.2.2)).sum :=
  ⟨by decide,
   c7_liquidity_sum_ge_total qpow 1 1 120 1000 60 2 60 0 (1/1000)
     (by decide) (by decide) (by decide)⟩

/-- Claim C8, amended: each band receives weight
max (fpow x (alpha-1) * fpow (1-x) (beta_param-1)) 0, where x is a strictly
decreasing function of the distance index and the center band is pinned at
x = 0.999. The x of the closest band is 1 - 1/(2*half) and the x of the
farthest band is 1/(2*half), which approaches 0 rather than 0.5 as half
grows; it equals 0.5 only when half is 1. -/
theorem c8_amended_weight_shape (fpow : ℚ → ℚ → ℚ) (alpha beta_param : ℚ)
    (half : Int) :
    (∀ j : Int, betaWeight fpow alpha beta_param half j =
      max (fpow (betaX half j) (alpha - 1)
        * fpow (1 - betaX half j) (beta_param - 1)) 0) ∧
    betaX half (-1) = 999/1000 ∧
    (∀ j1 j2 : Int, 0 ≤ j1 → j1 < j2 → j2 < half →
      betaX half j2 < betaX half j1) ∧
    (1 ≤ half →
      betaX half 0 = 1 - 1 / (2 * (half : ℚ)) ∧
      betaX half (half - 1) = 1 / (2 * (half : ℚ))) := by
  refine ⟨fun j => rfl, by simp [betaX], ?_, ?_⟩
  · exact fun j1 j2 h0 h12 h2 => betaX_strict_anti half j1 j2 h0 h12 h2
  · intro hh
    have hhq : (0 : ℚ) < (half : ℚ) := by exact_mod_cast (by omega : (0:Int) < half)
    constructor
    · rw [betaX_eq_of_lt half 0 le_rfl (by omega)]
      push_cast
      field_simp
    · rw [betaX_eq_of_lt half (half - 1) (by omega) (by omega)]
      push_cast
      field_simp
      ring

/-- Claim C8 witness at a concrete configuration with six ranges. -/
theorem c8_witness :
    betaX 3 (-1) = 999/1000 ∧
    betaX 3 2 < betaX 3 1 ∧
    betaX 3 0 = 1 - 1 / (2 * (3 : ℚ)) ∧
    betaX 3 2 = 1 / (2 * (3 : ℚ)) :=
  ⟨(c8_amended_weight_shape (fun _ _ => 1) 2 2 3).2.1,
   (c8_amended_weight_shape (fun _ _ => 1) 2 2 3).2.2.1 1 2
     (by decide) (by decide) (by decide),
   ((c8_amended_weight_shape (fun _ _ => 1) 2 2 3).2.2.2 (by decide)).1,
   by
    have h := ((c8_amended_weight_shape (fun _ _ => 1) 2 2 3).2.2.2 (by decide)).2
    norm_num at h ⊢
    exact h⟩

unseal Rat.mul Rat.inv Rat.add Rat.sub in
/-- Claim C8 counterexample: for a six-range configuration, half is 3 and the
farthest band has distance index 2, whose x value is 1/6; its distance to 0.5
is twice its distance to 0, so it is not near 0.5 as the claim states. -/
theorem c8_counterexample :
    betaX 3 2 = 1/6 ∧ ((1:ℚ)/2 - 1/6) > (1/6 - 0) := by
  constructor
  · decide
  · decide

-- ===================== offchain/price_process.py =====================

/-- The PriceProcessState of offchain/price_process.py: latent nonnegative
scale r and fundamental price S. -/
structure PPState where
  r : ℚ
  S : ℚ
deriving DecidableEq

/-- The function step_price of offchain/price_process.py. The two calls to
rng.normalvariate are modelled by the standard normal draws z1 and z2, with
normalvariate 0 sigma equal to sigma times a standard draw; the library
exponential is the explicit parameter expf. -/
def step_price_mr (kappa r_bar sigma_s : ℚ) (expf : ℚ → ℚ) (z1 z2 : ℚ)
    (state : PPState) : PPState :=
  let u_t := sigma_s * z1
  let r_new := max 0 (kappa * r_bar + (1 - kappa) * state.r + u_t)
  let eps_t := r_new * z2
  { r := r_new, S := state.S * expf eps_t }

/-- Iterating step_price over a list of draw pairs, consumed in order. -/
def iterate_price (kappa r_bar sigma_s : ℚ) (expf : ℚ → ℚ)
    (draws : List (ℚ × ℚ)) (state : PPState) : PPState :=
  draws.foldl (fun st d => step_price_mr kappa r_bar sigma_s expf d.1 d.2 st) state

lemma step_price_mr_r_fixed (r_bar : ℚ) (expf : ℚ → ℚ) (z1 z2 : ℚ)
    (state : PPState) (h : 0 ≤ state.r) :
    (step_price_mr 0 r_bar 0 expf z1 z2 state).r = state.r := by
  simp only [step_price_mr]
  have harith : (0 : ℚ) * r_bar + (1 - 0) * state.r + 0 * z1 = state.r := by ring
  rw [harith]
  exact max_eq_right h

/-- Claim C9: with sigma_s = 0 and kappa = 0, the latent scale r is unchanged
by every step, for every draw sequence, every exponential function, every
mean level r_bar, and any number of steps, as long as the initial r is
nonnegative. -/
theorem c9_r_invariant_zero_params (r_bar : ℚ) (expf : ℚ → ℚ)
    (draws : List (ℚ × ℚ)) (state : PPState) (h : 0 ≤ state.r) :
    (iterate_price 0 r_bar 0 expf draws state).r = state.r := by
  induction draws generalizing state with
  | nil => rfl
  | cons d rest ih =>
    have hstep := step_price_mr_r_fixed r_bar expf d.1 d.2 state h
    have hnext : 0 ≤ (step_price_mr 0 r_bar 0 expf d.1 d.2 state).r := by
      rw [hstep]; exact h
    simp only [iterate_price, List.foldl_cons]
    have := ih (step_price_mr 0 r_bar 0 expf d.1 d.2 state) hnext
    simp only [iterate_price] at this
    rw [this, hstep]

unseal Rat.mul Rat.add Rat.sub in
/-- Claim C9 witness: a concrete two-step run with nonzero draws keeps r. -/
theorem c9_witness :
    (0 : ℚ) ≤ (2 : ℚ) ∧
    (iterate_price 0 5 0 (fun q => q + 1) [(3, 7), (11, 13)]
      { r := 2, S := 100 }).r = 2 :=
  ⟨by decide,
   c9_r_invariant_zero_params 5 (fun q => q + 1) [(3, 7), (11, 13)]
     { r := 2, S := 100 } (by decide)⟩

-- ===================== offchain/run_orderflow.py =====================

/-- Result of a pool adapter round trip for one executed sub-trade: the price
returned by run_step and the tick read by the get_state call right after. -/
structure StepRes where
  price : ℚ
  tick : Int
deriving DecidableEq

/-- Balances of the swap_helper actor read by get_state inside the arbitrage
engine (lines 199-202 of run_orderflow.py). -/
structure SwapBal where
  weth : Int
  usdc : Int
deriving DecidableEq

/-- The function compute_fee_usdc of run_orderflow.py, lines 41-74, with the
pool fee tier of 3000 parts per million. -/
def compute_fee_usdc (amount_in_raw : Int) (zero_for_one : Bool)
    (market_price : ℚ) : ℚ :=
  if amount_in_raw ≤ 0 then 0
  else
    let fee_fraction : ℚ := 3000 / 1000000
    if zero_for_one then
      let amount_weth : ℚ := (amount_in_raw : ℚ) / 1000000000000000000
      let fee_weth := amount_weth * fee_fraction
      fee_weth * market_price
    else
      let amount_usdc : ℚ := (amount_in_raw : ℚ) / 1000000
      amount_usdc * fee_fraction

/-- The function is_tick_in_any_range of run_orderflow.py, lines 121-128:
half-open membership, lower bound included and upper bound excluded. -/
def is_tick_in_any_range (tick : Int) (ranges : List (Int × Int)) : Bool :=
  ranges.any (fun r => decide (r.1 ≤ tick) && decide (tick < r.2))

/-- The fee accrual step shared by every accrual site of run_orderflow.py
(lines 241-242, 266-267, 311-312, 340-341 and 479-482): the fee of a trade
is added only when the resulting tick lies inside at least one range. -/
def accrue_fee_in_range (ranges : List (Int × Int)) (tick : Int)
    (amount_in_raw : Int) (zero_for_one : Bool) (market_price : ℚ) : ℚ :=
  if is_tick_in_any_range tick ranges then
    compute_fee_usdc amount_in_raw zero_for_one market_price
  else 0

/-- Lines 324-347 of run_arbitrage_step in run_orderflow.py: the final nudge
trade, reached with two executed trades so far. -/
def arb_nudge (market_price : ℚ) (beta_ranges : List (Int × Int))
    (zero_for_one : Bool) (max_affordable probe_amount q_target_int : Int)
    (p_after_main fees2 : ℚ) (oracle : List (Option StepRes)) : ℚ × Nat × ℚ :=
  if max_affordable - probe_amount - q_target_int ≤ 0 then (p_after_main, 2, fees2)
  else
    let nudge_amount := max 1 (Int.fdiv (max_affordable - probe_amount - q_target_int) 10)
    match oracle with
    | some ur :: _ =>
        (ur.price, 3,
          fees2 + accrue_fee_in_range beta_ranges ur.tick nudge_amount
            zero_for_one market_price)
    | _ => (p_after_main, 2, fees2)

/-- Lines 254-347 of run_arbitrage_step in run_orderflow.py: after a
successful probe, either the naive fallback trade (no measurable slope) or
the targeted main trade followed by the final nudge. -/
def arb_main (p_pool market_price : ℚ) (beta_ranges : List (Int × Int))
    (max_arb_trades : Nat) (band : ℚ) (zero_for_one : Bool)
    (max_affordable probe_amount : Int) (p_after_probe fees1 : ℚ)
    (oracle : List (Option StepRes)) : ℚ × Nat × ℚ :=
  if (probe_amount : ℚ) = 0 ∨ p_after_probe - p_pool = 0 then
    let naive_amount := max 1 (Int.fdiv max_affordable 4)
    match oracle with
    | some nr :: _ =>
        (nr.price, 2,
          fees1 + accrue_fee_in_range beta_ranges nr.tick naive_amount
            zero_for_one market_price)
    | _ => (p_after_probe, 1, fees1)
  else
    let slope := (p_after_probe - p_pool) / (probe_amount : ℚ)
    if slope = 0 then (p_after_probe, 1, fees1)
    else
      let q_target := (market_price - p_after_probe) / slope
      if q_target ≤ 0 then (p_after_probe, 1, fees1)
      else if max_affordable - probe_amount ≤ 0 then (p_after_probe, 1, fees1)
      else
        let q_target_int := max 1 (min (pyInt q_target) (max_affordable - probe_amount))
        match oracle with
        | some mr :: rest2 =>
            let fees2 := fees1 + accrue_fee_in_range beta_ranges mr.tick
              q_target_int zero_for_one market_price
            if |(mr.price - market_price) / market_price| ≤ band
                ∨ max_arb_trades ≤ 2 then
              (mr.price, 2, fees2)
            else
              arb_nudge market_price beta_ranges zero_for_one max_affordable
                probe_amount q_target_int mr.price fees2 rest2
        | _ => (p_after_probe, 1, fees1)

/-- The function run_arbitrage_step of run_orderflow.py, lines 161-347. The
pool adapter is the oracle list: each successful run_step call consumes one
some entry holding the returned price and the tick read right after; a raised
adapter error is a none entry, and an exhausted oracle also means failure. -/
def run_arbitrage_step (pool_price_start market_price : ℚ)
    (beta_ranges : List (Int × Int)) (max_arb_trades : Nat) (band : ℚ)
    (swap_bal : SwapBal) (oracle : List (Option StepRes)) : ℚ × Nat × ℚ :=
  if pool_price_start ≤ 0 ∨ market_price ≤ 0 then (pool_price_start, 0, 0)
  else
    let rel_diff := (pool_price_start - market_price) / market_price
    if |rel_diff| ≤ band then (pool_price_start, 0, 0)
    else
      let sell_weth := 0 < rel_diff
      let token_in_bal := if sell_weth then swap_bal.weth else swap_bal.usdc
      let zero_for_one := sell_weth
      if token_in_bal ≤ 0 then (pool_price_start, 0, 0)
      else
        let max_affordable := Int.fdiv token_in_bal 2
        if max_affordable ≤ 0 then (pool_price_start, 0, 0)
        else
          let probe_amount := pyInt (max 1 ((max_affordable : ℚ) * (1/20)))
          match oracle with
          | some pr :: rest =>
              let fees1 := accrue_fee_in_range beta_ranges pr.tick probe_amount
                zero_for_one market_price
              if |(pr.price - market_price) / market_price| ≤ band
                  ∨ max_arb_trades ≤ 1 then
                (pr.price, 1, fees1)
              else
                arb_main pool_price_start market_price beta_ranges
                  max_arb_trades band zero_for_one max_affordable probe_amount
                  pr.price fees1 rest
          | _ => (pool_price_start, 0, 0)

/-- The function value_position_usdc of run_orderflow.py, lines 353-363. -/
def value_position_usdc (weth_raw usdc_raw : Int) (price_usdc_per_weth : ℚ)
    (weth_decimals usdc_decimals : Nat) : ℚ :=
  (weth_raw : ℚ) / (10 : ℚ) ^ weth_decimals * price_usdc_per_weth
    + (usdc_raw : ℚ) / (10 : ℚ) ^ usdc_decimals

/-- The get_state snapshot fields run_episode reads: pool price, tick, and
the balances of the lp_helper and pool actors. -/
structure PoolState where
  price : ℚ
  tick : Int
  lp_helper_weth : Int
  lp_helper_usdc : Int
  pool_weth : Int
  pool_usdc : Int
deriving DecidableEq

/-- The external inputs consumed by one loop iteration of run_episode: the
realized lognormal factor of the market price step (the value of the Decimal
exponential of sigma times the standard draw, always nonnegative for real
runs), the direction draw, the flow trade result (none models a raised
adapter error, which skips the step), the get_state snapshot after the flow
trade, the swap_helper balances read inside the arbitrage engine, and the
arbitrage oracle. -/
structure StepInput where
  factor : ℚ
  buy_weth : Bool
  flow_res : Option StepRes
  post : PoolState
  arb_swap_bal : SwapBal
  arb_oracle : List (Option StepRes)
deriving DecidableEq

/-- One output row of run_episode (lines 519-533 of run_orderflow.py), with
the numeric fields holding the exact values from which the stored floats are
converted. The direction field is true for buy_weth. -/
structure Row where
  step : Nat
  buy_weth : Bool
  tick : Int
  pool_price_usdc_per_weth : ℚ
  market_price_usdc_per_weth : ℚ
  n_arb_trades : Nat
  lp_weth : Int
  lp_usdc : Int
  lp_value_usdc : ℚ
  hodl_value_usdc : ℚ
  lp_vs_hodl : ℚ
  fees_value_usdc : ℚ
  il_value_usdc : ℚ
deriving DecidableEq

/-- Lines 140-155 of run_orderflow.py: one step of the flat lognormal market
price process; the factor argument is the realized exponential value. -/
def step_price_flat (price factor : ℚ) : ℚ :=
  (if price ≤ 0 then 1000 else price) * factor

/-- The main loop of run_episode (lines 418-545 of run_orderflow.py), one
iteration per StepInput entry, carrying the market price state and the
cumulative fee accumulator. The get_state snapshot taken before the flow
trade (lines 424-426) only feeds log lines, so it is not an input here, and
the optional tx hash row extras of lines 536-543 are not modelled. -/
def run_episode_loop (beta_ranges : List (Int × Int)) (weth0 usdc0 : Int)
    (init_strategy_value : ℚ) (step_idx : Nat) (price fees : ℚ)
    (inputs : List StepInput) : List Row :=
  match inputs with
  | [] => []
  | inp :: rest =>
    let market_price := step_price_flat price inp.factor
    let base_notional := min (max 100 (init_strategy_value * (1/100))) 10000
    let amount_in_raw := if inp.buy_weth then pyInt (base_notional * 1000000)
      else pyInt (base_notional / max market_price 1 * 1000000000000000000)
    let zero_for_one := !inp.buy_weth
    match inp.flow_res with
    | none => run_episode_loop beta_ranges weth0 usdc0 init_strategy_value
        (step_idx + 1) market_price fees rest
    | some _ =>
      let fees1 := fees + accrue_fee_in_range beta_ranges inp.post.tick
        amount_in_raw zero_for_one market_price
      let arb := run_arbitrage_step inp.post.price market_price beta_ranges 10
        (1/1000) inp.arb_swap_bal inp.arb_oracle
      let fees2 := fees1 + arb.2.2
      let lp_weth_total := inp.post.lp_helper_weth + inp.post.pool_weth
      let lp_usdc_total := inp.post.lp_helper_usdc + inp.post.pool_usdc
      let lp_value := value_position_usdc lp_weth_total lp_usdc_total market_price 18 6
      let hodl_value := value_position_usdc weth0 usdc0 market_price 18 6
      { step := step_idx, buy_weth := inp.buy_weth, tick := inp.post.tick,
        pool_price_usdc_per_weth := arb.1,
        market_price_usdc_per_weth := market_price,
        n_arb_trades := arb.2.1,
        lp_weth := lp_weth_total, lp_usdc := lp_usdc_total,
        lp_value_usdc := lp_value, hodl_value_usdc := hodl_value,
        lp_vs_hodl := lp_value - hodl_value,
        fees_value_usdc := fees2,
        il_value_usdc := (lp_value - hodl_value) - fees2 } ::
      run_episode_loop beta_ranges weth0 usdc0 init_strategy_value
        (step_idx + 1) market_price fees2 rest

/-- The function run_episode of run_orderflow.py, lines 369-550. The loaded
beta ranges and the initial get_state snapshot are inputs; the per-step
adapter responses and random draws form the input list, one entry per loop
iteration. -/
def run_episode (state0 : PoolState) (beta_ranges : List (Int × Int))
    (inputs : List StepInput) : List Row :=
  let weth0 := state0.lp_helper_weth + state0.pool_weth
  let usdc0 := state0.lp_helper_usdc + state0.pool_usdc
  let init_strategy_value := value_position_usdc weth0 usdc0 state0.price 18 6
  run_episode_loop beta_ranges weth0 usdc0 init_strategy_value 0 state0.price 0 inputs

-- ===================== orderflow helper lemmas =====================

lemma arb_nudge_trunc (mp : ℚ) (br : List (Int × Int)) (zfo : Bool)
    (ma pa qt : Int) (p f : ℚ) (pre rest : List (Option StepRes)) :
    arb_nudge mp br zfo ma pa qt p f (pre ++ none :: rest)
      = arb_nudge mp br zfo ma pa qt p f pre := by
  cases pre with
  | nil => rfl
  | cons a t =>
    cases a with
    | none => rfl
    | some r => rfl

lemma arb_main_trunc (pp mp : ℚ) (br : List (Int × Int)) (mat : Nat) (band : ℚ)
    (zfo : Bool) (ma pa : Int) (ppr f1 : ℚ)
    (pre rest : List (Option StepRes)) :
    arb_main pp mp br mat band zfo ma pa ppr f1 (pre ++ none :: rest)
      = arb_main pp mp br mat band zfo ma pa ppr f1 pre := by
  cases pre with
  | nil => rfl
  | cons a t =>
    cases a with
    | none => rfl
    | some r =>
      simp only [arb_main, List.cons_append]
      split_ifs <;> first
        | rfl
        | exact arb_nudge_trunc mp br zfo ma pa _ r.price _ t rest

lemma run_arbitrage_step_trunc (pp mp : ℚ) (br : List (Int × Int)) (mat : Nat)
    (band : ℚ) (sb : SwapBal) (pre rest : List (Option StepRes)) :
    run_arbitrage_step pp mp br mat band sb (pre ++ none :: rest)
      = run_arbitrage_step pp mp br mat band sb pre := by
  cases pre with
  | nil => rfl
  | cons a t =>
    cases a with
    | none => rfl
    | some r =>
      simp only [run_arbitrage_step, List.cons_append]
      split_ifs <;> first
        | rfl
        | exact arb_main_trunc pp mp br mat band _ _ _ r.price _ t rest

lemma compute_fee_usdc_nonneg (a : Int) (zfo : Bool) (m : ℚ) (hm : 0 ≤ m) :
    0 ≤ compute_fee_usdc a zfo m := by
  simp only [compute_fee_usdc]
  split_ifs with h1 h2
  · exact le_refl 0
  · have ha : (0 : ℚ) ≤ (a : ℚ) := by
      exact_mod_cast le_of_lt (by omega : (0:Int) < a)
    exact mul_nonneg (mul_nonneg (div_nonneg ha (by norm_num)) (by norm_num)) hm
  · have ha : (0 : ℚ) ≤ (a : ℚ) := by
      exact_mod_cast le_of_lt (by omega : (0:Int) < a)
    exact mul_nonneg (div_nonneg ha (by norm_num)) (by norm_num)

lemma accrue_fee_in_range_nonneg (rs : List (Int × Int)) (t a : Int)
    (zfo : Bool) (m : ℚ) (hm : 0 ≤ m) :
    0 ≤ accrue_fee_in_range rs t a zfo m := by
  unfold accrue_fee_in_range
  split
  · exact compute_fee_usdc_nonneg a zfo m hm
  · exact le_refl 0

lemma arb_nudge_fees_le (mp : ℚ) (br : List (Int × Int)) (zfo : Bool)
    (ma pa qt : Int) (p f : ℚ) (oracle : List (Option StepRes)) (hm : 0 ≤ mp) :
    f ≤ (arb_nudge mp br zfo ma pa qt p f oracle).2.2 := by
  simp only [arb_nudge]
  split
  · exact le_refl f
  · rcases oracle with _ | ⟨o, t⟩
    · exact le_refl f
    · rcases o with _ | r
      · exact le_refl f
      · exact le_add_of_nonneg_right (accrue_fee_in_range_nonneg br _ _ zfo mp hm)

lemma arb_main_fees_le (pp mp : ℚ) (br : List (Int × Int)) (mat : Nat)
    (band : ℚ) (zfo : Bool) (ma pa : Int) (ppr f1 : ℚ)
    (oracle : List (Option StepRes)) (hm : 0 ≤ mp) :
    f1 ≤ (arb_main pp mp br mat band zfo ma pa ppr f1 oracle).2.2 := by
  simp only [arb_main]
  split_ifs
  · rcases oracle with _ | ⟨o, t⟩
    · exact le_refl f1
    · rcases o with _ | r
      · exact le_refl f1
      · exact le_add_of_nonneg_right (accrue_fee_in_range_nonneg br _ _ zfo mp hm)
  all_goals try exact le_refl f1
  rcases oracle with _ | ⟨o, t⟩
  · exact le_refl f1
  · rcases o with _ | r
    · exact le_refl f1
    · dsimp only
      split_ifs
      · exact le_add_of_nonneg_right
          (accrue_fee_in_range_nonneg br _ _ zfo mp hm)
      · exact le_trans
          (le_add_of_nonneg_right (accrue_fee_in_range_nonneg br _ _ zfo mp hm))
          (arb_nudge_fees_le mp br zfo ma pa _ r.price _ t hm)

set_option maxHeartbeats 1000000 in
lemma run_arbitrage_step_fees_nonneg (pp mp : ℚ) (br : List (Int × Int))
    (mat : Nat) (band : ℚ) (sb : SwapBal) (oracle : List (Option StepRes))
    (hm : 0 ≤ mp) :
    0 ≤ (run_arbitrage_step pp mp br mat band sb oracle).2.2 := by
  rcases oracle with _ | ⟨o, t⟩
  · simp only [run_arbitrage_step]
    split_ifs <;> exact le_rfl
  · rcases o with _ | r
    · simp only [run_arbitrage_step]
      split_ifs <;> exact le_rfl
    · simp only [run_arbitrage_step]
      split_ifs
      · exact le_rfl
      · exact le_rfl
      · exact le_rfl
      · exact le_rfl
      · exact accrue_fee_in_range_nonneg br _ _ _ mp hm
      · exact le_trans (accrue_fee_in_range_nonneg br _ _ _ mp hm)
          (arb_main_fees_le pp mp br mat band _ _ _ r.price _ t hm)
      · exact le_rfl
      · exact le_rfl
      · exact accrue_fee_in_range_nonneg br _ _ _ mp hm
      · exact le_trans (accrue_fee_in_range_nonneg br _ _ _ mp hm)
          (arb_main_fees_le pp mp br mat band _ _ _ r.price _ t hm)

lemma step_price_flat_nonneg (price factor : ℚ) (hf : 0 ≤ factor) :
    0 ≤ step_price_flat price factor := by
  unfold step_price_flat
  split_ifs with hp
  · exact mul_nonneg (by norm_num) hf
  · exact mul_nonneg (le_of_lt (lt_of_not_le hp)) hf

lemma run_episode_loop_fees (beta_ranges : List (Int × Int)) (w0 u0 : Int)
    (isv : ℚ) :
    ∀ (inputs : List StepInput) (idx : Nat) (price fees : ℚ),
      (∀ i ∈ inputs, 0 ≤ i.factor) →
      (∀ r ∈ run_episode_loop beta_ranges w0 u0 isv idx price fees inputs,
          fees ≤ r.fees_value_usdc) ∧
        List.Chain' (fun a b => a ≤ b)
          ((run_episode_loop beta_ranges w0 u0 isv idx price fees inputs).map
            Row.fees_value_usdc) := by
  intro inputs
  induction inputs with
  | nil =>
    intro idx price fees _
    constructor
    · intro r hr
      simp [run_episode_loop] at hr
    · simp [run_episode_loop]
  | cons inp rest ih =>
    intro idx price fees h
    have hf : 0 ≤ inp.factor := h inp (List.mem_cons_self _ _)
    have hrest : ∀ i ∈ rest, 0 ≤ i.factor :=
      fun i hi => h i (List.mem_cons_of_mem _ hi)
    have hm : 0 ≤ step_price_flat price inp.factor :=
      step_price_flat_nonneg price inp.factor hf
    cases hflow : inp.flow_res with
    | none =>
      have hrec := ih (idx + 1) (step_price_flat price inp.factor) fees hrest
      constructor
      · intro r hr
        apply hrec.1 r
        simpa [run_episode_loop, hflow] using hr
      · simpa [run_episode_loop, hflow] using hrec.2
    | some fr =>
      have harb : 0 ≤ (run_arbitrage_step inp.post.price
          (step_price_flat price inp.factor) beta_ranges 10 (1/1000)
          inp.arb_swap_bal inp.arb_oracle).2.2 :=
        run_arbitrage_step_fees_nonneg _ _ _ _ _ _ _ hm
      have hacc : ∀ (tick a : Int) (z : Bool),
          0 ≤ accrue_fee_in_range beta_ranges tick a z
            (step_price_flat price inp.factor) :=
        fun tick a z => accrue_fee_in_range_nonneg _ _ _ _ _ hm
      have hfees2 : fees ≤ fees + accrue_fee_in_range beta_ranges inp.post.tick
          (if inp.buy_weth then
            pyInt (min (max 100 (isv * (1/100))) 10000 * 1000000)
          else
            pyInt (min (max 100 (isv * (1/100))) 10000
              / max (step_price_flat price inp.factor) 1
              * 1000000000000000000))
          (!inp.buy_weth) (step_price_flat price inp.factor)
          + (run_arbitrage_step inp.post.price
              (step_price_flat price inp.factor) beta_ranges 10 (1/1000)
              inp.arb_swap_bal inp.arb_oracle).2.2 := by
        have h1 := hacc inp.post.tick
          (if inp.buy_weth then
            pyInt (min (max 100 (isv * (1/100))) 10000 * 1000000)
          else
            pyInt (min (max 100 (isv * (1/100))) 10000
              / max (step_price_flat price inp.factor) 1
              * 1000000000000000000))
          (!inp.buy_weth)
        linarith
      have hrec := ih (idx + 1) (step_price_flat price inp.factor)
        (fees + accrue_fee_in_range beta_ranges inp.post.tick
          (if inp.buy_weth then
            pyInt (min (max 100 (isv * (1/100))) 10000 * 1000000)
          else
            pyInt (min (max 100 (isv * (1/100))) 10000
              / max (step_price_flat price inp.factor) 1
              * 1000000000000000000))
          (!inp.buy_weth) (step_price_flat price inp.factor)
          + (run_arbitrage_step inp.post.price
              (step_price_flat price inp.factor) beta_ranges 10 (1/1000)
              inp.arb_swap_bal inp.arb_oracle).2.2) hrest
      constructor
      · intro r hr
        simp only [run_episode_loop, hflow] at hr
        rcases List.mem_cons.1 hr with rfl | hr2
        · exact hfees2
        · exact le_trans hfees2 (hrec.1 r hr2)
      · simp only [run_episode_loop, hflow, List.map_cons]
        refine List.chain'_cons'.2 ⟨?_, hrec.2⟩
        intro y hy
        rcases hR : run_episode_loop beta_ranges w0 u0 isv (idx + 1)
            (step_price_flat price inp.factor)
            (fees + accrue_fee_in_range beta_ranges inp.post.tick
              (if inp.buy_weth then
                pyInt (min (max 100 (isv * (1/100))) 10000 * 1000000)
              else
                pyInt (min (max 100 (isv * (1/100))) 10000
                  / max (step_price_flat price inp.factor) 1
                  * 1000000000000000000))
              (!inp.buy_weth) (step_price_flat price inp.factor)
              + (run_arbitrage_step inp.post.price
                  (step_price_flat price inp.factor) beta_ranges 10 (1/1000)
                  inp.arb_swap_bal inp.arb_oracle).2.2) rest
          with _ | ⟨r0, rr⟩
        · rw [hR] at hy
          simp at hy
        · rw [hR] at hy
          simp only [List.map_cons, List.head?_cons, Option.mem_def,
            Option.some_inj] at hy
          subst hy
          exact hrec.1 r0 (by rw [hR]; exact List.mem_cons_self _ _)

lemma run_episode_loop_il (beta_ranges : List (Int × Int)) (w0 u0 : Int)
    (isv : ℚ) :
    ∀ (inputs : List StepInput) (idx : Nat) (price fees : ℚ),
      ∀ r ∈ run_episode_loop beta_ranges w0 u0 isv idx price fees inputs,
        r.il_value_usdc = r.lp_vs_hodl - r.fees_value_usdc := by
  intro inputs
  induction inputs with
  | nil =>
    intro idx price fees r hr
    simp [run_episode_loop] at hr
  | cons inp rest ih =>
    intro idx price fees r hr
    cases hflow : inp.flow_res with
    | none =>
      simp only [run_episode_loop, hflow] at hr
      exact ih _ _ _ r hr
    | some fr =>
      simp only [run_episode_loop, hflow] at hr
      rcases List.mem_cons.1 hr with rfl | hr2
      · rfl
      · exact ih _ _ _ r hr2

-- ===================== claim theorems: episode and arbitrage =====================

/-- Claim C1: for every recorded episode row, the impermanent loss field
equals the lp versus hodl field minus the cumulative fees field exactly, for
the exact Decimal values from which the stored row is converted. -/
theorem c1_decomposition_identity (state0 : PoolState)
    (beta_ranges : List (Int × Int)) (inputs : List StepInput) (r : Row)
    (hr : r ∈ run_episode state0 beta_ranges inputs) :
    r.il_value_usdc = r.lp_vs_hodl - r.fees_value_usdc := by
  simp only [run_episode] at hr
  exact run_episode_loop_il _ _ _ _ _ _ _ _ r hr

/-- Concrete initial snapshot used by the episode witnesses. -/
def ep_state0 : PoolState :=
  { price := 1, tick := 0, lp_helper_weth := 0, lp_helper_usdc := 1000000,
    pool_weth := 0, pool_usdc := 0 }

/-- Concrete single step input used by the episode witnesses. -/
def ep_input : StepInput :=
  { factor := 1/4, buy_weth := true,
    flow_res := some { price := 1/4, tick := 0 },
    post := { price := 1/4, tick := 0, lp_helper_weth := 0,
              lp_helper_usdc := 1400000, pool_weth := 0, pool_usdc := 0 },
    arb_swap_bal := { weth := 0, usdc := 0 },
    arb_oracle := [] }

/-- The row the concrete one step episode produces. -/
def ep_row : Row :=
  { step := 0, buy_weth := true, tick := 0,
    pool_price_usdc_per_weth := 1/4, market_price_usdc_per_weth := 1/4,
    n_arb_trades := 0, lp_weth := 0, lp_usdc := 1400000,
    lp_value_usdc := 7/5, hodl_value_usdc := 1, lp_vs_hodl := 2/5,
    fees_value_usdc := 3/10, il_value_usdc := 1/10 }

unseal Rat.mul Rat.inv Rat.add Rat.sub in
/-- Claim C1 witness: a concrete one step episode whose row satisfies the
decomposition identity. -/
theorem c1_witness :
    ep_row ∈ run_episode ep_state0 [(0, 100)] [ep_input] ∧
    ep_row.il_value_usdc = ep_row.lp_vs_hodl - ep_row.fees_value_usdc :=
  ⟨by decide,
   c1_decomposition_identity ep_state0 [(0, 100)] [ep_input] ep_row (by decide)⟩

/-- Claim C5: within one episode, the cumulative fee accumulator recorded in
the rows is monotonically non decreasing, for every adapter response
sequence, provided every market price factor is nonnegative, which holds for
real runs because each factor is the value of an exponential. -/
theorem c5_fees_monotone (state0 : PoolState) (beta_ranges : List (Int × Int))
    (inputs : List StepInput) (h : ∀ i ∈ inputs, 0 ≤ i.factor) :
    List.Chain' (fun a b => a ≤ b)
      ((run_episode state0 beta_ranges inputs).map Row.fees_value_usdc) := by
  simp only [run_episode]
  exact (run_episode_loop_fees beta_ranges _ _ _ inputs 0 state0.price 0 h).2

unseal Rat.mul Rat.inv Rat.add Rat.sub in
/-- Claim C5 witness: the concrete one step episode has nonnegative factors
and monotone recorded fees. -/
theorem c5_witness :
    (∀ i ∈ [ep_input], 0 ≤ i.factor) ∧
    List.Chain' (fun a b => a ≤ b)
      ((run_episode ep_state0 [(0, 100)] [ep_input]).map Row.fees_value_usdc) :=
  ⟨by decide, c5_fees_monotone ep_state0 [(0, 100)] [ep_input] (by decide)⟩

/-- Claim C4: with positive pool and market prices, the arbitrage engine
returns the pool price with zero trades and zero fees when the relative
deviation is within the band tolerance, and likewise when the balance of the
asset to be sold is zero. -/
theorem c4_arb_no_trade (pool_price_start market_price band : ℚ)
    (beta_ranges : List (Int × Int)) (max_arb_trades : Nat) (swap_bal : SwapBal)
    (oracle : List (Option StepRes)) (hp : 0 < pool_price_start)
    (hm : 0 < market_price) :
    (|(pool_price_start - market_price) / market_price| ≤ band →
      run_arbitrage_step pool_price_start market_price beta_ranges
        max_arb_trades band swap_bal oracle = (pool_price_start, 0, 0)) ∧
    ((if 0 < (pool_price_start - market_price) / market_price then
        swap_bal.weth else swap_bal.usdc) = 0 →
      run_arbitrage_step pool_price_start market_price beta_ranges
        max_arb_trades band swap_bal oracle = (pool_price_start, 0, 0)) := by
  have hguard : ¬(pool_price_start ≤ 0 ∨ market_price ≤ 0) := by
    push_neg
    exact ⟨hp, hm⟩
  constructor
  · intro hband
    simp only [run_arbitrage_step]
    rw [if_neg hguard, if_pos hband]
  · intro hbal
    simp only [run_arbitrage_step]
    rw [if_neg hguard]
    by_cases hband : |(pool_price_start - market_price) / market_price| ≤ band
    · rw [if_pos hband]
    · rw [if_neg hband, hbal, if_pos le_rfl]

/-- Claim C4 witness at concrete arguments for both parts. -/
theorem c4_witness :
    (0 : ℚ) < 2 ∧ (0 : ℚ) < 1 ∧
    (|((2 : ℚ) - 1) / 1| ≤ 2 →
      run_arbitrage_step 2 1 [(0, 100)] 3 2 { weth := 5, usdc := 5 } []
        = (2, 0, 0)) ∧
    ((if 0 < ((2 : ℚ) - 1) / 1 then (0 : Int) else 7) = 0 →
      run_arbitrage_step 2 1 [(0, 100)] 3 (1/1000) { weth := 0, usdc := 7 } []
        = (2, 0, 0)) :=
  ⟨by norm_num, by norm_num,
   (c4_arb_no_trade 2 1 2 [(0, 100)] 3 { weth := 5, usdc := 5 } []
     (by norm_num) (by norm_num)).1,
   (c4_arb_no_trade 2 1 (1/1000) [(0, 100)] 3 { weth := 0, usdc := 7 } []
     (by norm_num) (by norm_num)).2⟩

/-- Claim C6: a sub trade failure inside the arbitrage engine is swallowed
rather than propagated; the run with an adapter failure at any position
returns exactly what a run whose oracle simply ends at that point returns,
which by the definition of each stop branch is the last successfully
observed pool price, the sub trades executed so far, and the fees accrued so
far; nothing after the failure is consumed. -/
theorem c6_adapter_failure_swallowed (pool_price_start market_price : ℚ)
    (beta_ranges : List (Int × Int)) (max_arb_trades : Nat) (band : ℚ)
    (swap_bal : SwapBal) (pre rest : List (Option StepRes)) :
    run_arbitrage_step pool_price_start market_price beta_ranges
      max_arb_trades band swap_bal (pre ++ none :: rest)
    = run_arbitrage_step pool_price_start market_price beta_ranges
        max_arb_trades band swap_bal pre :=
  run_arbitrage_step_trunc pool_price_start market_price beta_ranges
    max_arb_trades band swap_bal pre rest

/-- Claim C10: tick membership used for fee accrual is half open, and through
the shared accrual step this makes a trade whose resulting tick equals a
band upper bound, lying in no other band, accrue exactly zero, while a
resulting tick at a band lower bound accrues the computed fee. -/
theorem c10_half_open_accrual (ranges : List (Int × Int)) (t amount : Int)
    (zero_for_one : Bool) (market_price : ℚ) :
    (is_tick_in_any_range t ranges = true ↔
      ∃ p ∈ ranges, p.1 ≤ t ∧ t < p.2) ∧
    (∀ lo hi : Int, (lo, hi) ∈ ranges → lo < hi →
      accrue_fee_in_range ranges lo amount zero_for_one market_price
        = compute_fee_usdc amount zero_for_one market_price ∧
      ((∀ p ∈ ranges, ¬(p.1 ≤ hi ∧ hi < p.2)) →
        accrue_fee_in_range ranges hi amount zero_for_one market_price = 0)) := by
  have hiff : ∀ s : Int, (is_tick_in_any_range s ranges = true ↔
      ∃ p ∈ ranges, p.1 ≤ s ∧ s < p.2) := by
    intro s
    simp [is_tick_in_any_range, List.any_eq_true, Bool.and_eq_true,
      decide_eq_true_eq]
  refine ⟨hiff t, ?_⟩
  intro lo hi hmem hlt
  constructor
  · unfold accrue_fee_in_range
    rw [if_pos ((hiff lo).2 ⟨(lo, hi), hmem, le_rfl, hlt⟩)]
  · intro hout
    unfold accrue_fee_in_range
    rw [if_neg]
    intro habs
    rcases (hiff hi).1 habs with ⟨p, hp, h1, h2⟩
    exact hout p hp ⟨h1, h2⟩

unseal Rat.mul Rat.inv Rat.add Rat.sub in
/-- Claim C10 witness: a concrete band list where the lower bound accrues the
fee and the upper bound, in no other band, accrues zero. -/
theorem c10_witness :
    ((0, 10) ∈ [((0 : Int), (10 : Int))] ∧ (0 : Int) < 10) ∧
    accrue_fee_in_range [(0, 10)] 0 5 true 2 = compute_fee_usdc 5 true 2 ∧
    accrue_fee_in_range [(0, 10)] 10 5 true 2 = 0 :=
  ⟨⟨by decide, by decide⟩,
   ((c10_half_open_accrual [(0, 10)] 0 5 true 2).2 0 10
     (by decide) (by decide)).1,
   ((c10_half_open_accrual [(0, 10)] 10 5 true 2).2 0 10
     (by decide) (by decide)).2 (by decide)⟩

end AmmBetaSim
